import Mathlib

/-!
Verification of the RAG pipeline core of the Telegram chatbot (`index.js`).

Each section embeds one component of the source file as Lean definitions and
proves (or refutes) the corresponding specification sentences:

* `retryWithBackoff` (index.js lines 212-233): retry loop with a bounded
  attempt cap.
* the embedding cache and its sweep `manageCache` (lines 326-353).
* the ingestion tail of `processDocument` (lines 2629-2648): order of catalog
  registration versus file persistence.
* the chunking loop of `processDocument` (lines 2569-2583).
* `retrieve`'s fusion of the two result sets (lines 2683-2709).
* `calculateCosineSimilarity` (lines 2829-2862) and the local vector store
  `searchUploadedDocuments` (lines 2751-2827).
* the prompt assembly and history update of `callAzureOpenAI`
  (lines 2865-2949).

Machine numbers (IEEE doubles in the source) are embedded as `ℚ` for the data
that the program computes exactly (accumulated sums and products of vector
components, scores) and as `ℝ` where `Math.sqrt` and division enter.
-/

namespace TelegramChatbot

/-! ### Retry logic with exponential backoff (index.js lines 212-233)

`op n` is the outcome of the `n`-th invocation (1-based) of the wrapped
`operation`.  The model returns the final outcome together with the number of
invocations performed; `none` is the JS `undefined` returned when the loop body
never runs.  The backoff delays are timing only and do not influence the
result, so they are not modelled. -/

/-- Model of the inner loop of `retryWithBackoff`, starting at attempt number
`attempt`.  Returns the outcome and the number of invocations of the
operation. -/
def retryFrom {E A : Type} (op : Nat → Except E A) (maxRetries : Nat)
    (attempt : Nat) : Option (Except E A) × Nat :=
  if _h : attempt ≤ maxRetries then
    match op attempt with
    | .ok a => (some (.ok a), 1)
    | .error e =>
      if attempt = maxRetries then
        (some (.error e), 1)
      else
        let r := retryFrom op maxRetries (attempt + 1)
        (r.1, r.2 + 1)
  else
    (none, 0)
termination_by maxRetries + 1 - attempt
decreasing_by omega

/-- Model of `retryWithBackoff(operation, maxRetries)`: the loop runs
`attempt = 1 .. maxRetries`; a success returns immediately, the error of the
final attempt is rethrown. -/
def retryWithBackoff {E A : Type} (op : Nat → Except E A) (maxRetries : Nat) :
    Option (Except E A) × Nat :=
  retryFrom op maxRetries 1

theorem retryFrom_all_fail {E A : Type} (op : Nat → Except E A) (errFn : Nat → E)
    (m : Nat) : ∀ k a, m - a = k → a ≤ m →
    (∀ i, a ≤ i → i ≤ m → op i = .error (errFn i)) →
    retryFrom op m a = (some (.error (errFn m)), m - a + 1) := by
  intro k
  induction k with
  | zero =>
    intro a hk ham hop
    have hend : a = m := by omega
    subst hend
    rw [retryFrom]
    simp [hop a le_rfl le_rfl]
  | succ n IH =>
    intro a hk ham hop
    have hlt : a < m := by omega
    have hend : ¬a = m := by omega
    have he := hop a le_rfl ham
    have hrec := IH (a + 1) (by omega) (by omega)
      (fun i hi₁ hi₂ => hop i (by omega) hi₂)
    rw [retryFrom]
    simp only [dif_pos ham, he, if_neg hend, hrec]
    have : m - (a + 1) + 1 + 1 = m - a + 1 := by omega
    rw [this]

theorem retryFrom_eventual_success {E A : Type} (op : Nat → Except E A) (v : A)
    (m : Nat) : ∀ k a, m - a = k → a ≤ m →
    (∀ i, a ≤ i → i < m → ∃ e, op i = .error e) → op m = .ok v →
    retryFrom op m a = (some (.ok v), m - a + 1) := by
  intro k
  induction k with
  | zero =>
    intro a hk ham hfail hok
    have hend : a = m := by omega
    subst hend
    rw [retryFrom]
    simp [hok]
  | succ n IH =>
    intro a hk ham hfail hok
    have hlt : a < m := by omega
    have hend : ¬a = m := by omega
    obtain ⟨e, he⟩ := hfail a le_rfl hlt
    have hrec := IH (a + 1) (by omega) (by omega)
      (fun i hi₁ hi₂ => hfail i (by omega) hi₂) hok
    rw [retryFrom]
    simp only [dif_pos ham, he, if_neg hend, hrec]
    have : m - (a + 1) + 1 + 1 = m - a + 1 := by omega
    rw [this]

/-- C5: for every operation schedule and retry cap `maxRetries ≥ 1` (a cap of at
least one attempt, as presupposed by "fails exactly maxRetries - 1 times" and
"the last error"): if the operation fails on every attempt before the last and
succeeds on attempt `maxRetries`, `retryWithBackoff` returns the success value
having invoked the operation exactly `maxRetries` times; if the operation fails
on every attempt, `retryWithBackoff` invokes it exactly `maxRetries` times and
rethrows the error of the last attempt. -/
theorem retryWithBackoff_spec {E A : Type} (m : Nat) (hm : 1 ≤ m) :
    (∀ (op : Nat → Except E A) (v : A),
      (∀ i, 1 ≤ i → i < m → ∃ e, op i = .error e) → op m = .ok v →
      retryWithBackoff op m = (some (.ok v), m))
  ∧ (∀ (op : Nat → Except E A) (errFn : Nat → E),
      (∀ i, 1 ≤ i → i ≤ m → op i = .error (errFn i)) →
      retryWithBackoff op m = (some (.error (errFn m)), m)) := by
  constructor
  · intro op v hfail hok
    have h := retryFrom_eventual_success op v m (m - 1) 1 (by omega) hm hfail hok
    rw [retryWithBackoff, h]
    congr 1
    omega
  · intro op errFn hop
    have h := retryFrom_all_fail op errFn m (m - 1) 1 (by omega) hm hop
    rw [retryWithBackoff, h]
    congr 1
    omega

/-- Concrete operation that fails twice and then succeeds. -/
def opFlaky : Nat → Except String Nat :=
  fun i => if i < 3 then .error "transient" else .ok 42

/-- Concrete operation that always fails. -/
def opBroken : Nat → Except String Nat :=
  fun _ => .error "down"

theorem retryWithBackoff_spec_witness :
    retryWithBackoff opFlaky 3 = (some (.ok 42), 3)
  ∧ retryWithBackoff opBroken 3 = (some (.error "down"), 3) := by
  constructor
  · exact (retryWithBackoff_spec 3 (by decide)).1 opFlaky 42
      (fun i h1 h2 => ⟨"transient", by simp [opFlaky, h2]⟩) (by simp [opFlaky])
  · exact (retryWithBackoff_spec 3 (by decide)).2 opBroken (fun _ => "down")
      (fun i h1 h2 => by simp [opBroken])

/-! ### Embedding cache and its sweep (index.js lines 326-353)

The embedding cache is a JS `Map`: iteration order is key-insertion order, and
`set` on an existing key updates the value in place without changing its
position.  `manageCache` takes the first `Math.floor(MAX_CACHE_SIZE * 0.2)`
entries in that order (`1000 * 0.2` is exactly `200` in IEEE doubles) and
deletes each of their keys, but only when occupancy strictly exceeds the
cap. -/

def MAX_CACHE_SIZE : Nat := 1000

/-- JS `Map.prototype.get`. -/
def mapGet {K V : Type} [DecidableEq K] (m : List (K × V)) (k : K) : Option V :=
  (m.find? (fun e => decide (e.1 = k))).map Prod.snd

/-- JS `Map.prototype.set`: update in place if the key exists, else append. -/
def mapSet {K V : Type} [DecidableEq K] (m : List (K × V)) (k : K) (v : V) :
    List (K × V) :=
  if (m.find? (fun e => decide (e.1 = k))).isSome then
    m.map (fun e => if e.1 = k then (k, v) else e)
  else
    m ++ [(k, v)]

/-- JS `Map.prototype.delete` (keys are unique in a `Map`). -/
def mapDelete {K V : Type} [DecidableEq K] (m : List (K × V)) (k : K) :
    List (K × V) :=
  m.filter (fun e => !(decide (e.1 = k)))

/-- Model of `manageCache` (lines 338-350): when the size exceeds
`MAX_CACHE_SIZE`, delete the keys of the first 20%-of-cap entries in insertion
order. -/
def manageCache {K V : Type} [DecidableEq K] (cache : List (K × V)) :
    List (K × V) :=
  if MAX_CACHE_SIZE < cache.length then
    let toRemove := cache.take (MAX_CACHE_SIZE * 2 / 10)
    toRemove.foldl (fun m e => mapDelete m e.1) cache
  else
    cache

/-- Inserting a list of entries one by one, as successive `embeddingCache.set`
calls do. -/
def insertAll {K V : Type} [DecidableEq K] (pairs : List (K × V)) :
    List (K × V) :=
  pairs.foldl (fun m e => mapSet m e.1 e.2) []

theorem foldl_mapSet_fresh {K V : Type} [DecidableEq K] :
    ∀ (pairs acc : List (K × V)), (pairs.map Prod.fst).Nodup →
    (∀ p ∈ pairs, ∀ e ∈ acc, e.1 ≠ p.1) →
    pairs.foldl (fun m e => mapSet m e.1 e.2) acc = acc ++ pairs := by
  intro pairs
  induction pairs with
  | nil => intro acc _ _; simp
  | cons q rest IH =>
    intro acc hnd hfresh
    have hnone : (acc.find? (fun e => decide (e.1 = q.1))).isSome = false := by
      rw [Bool.eq_false_iff, Ne, Option.isSome_iff_exists]
      rintro ⟨e, he⟩
      have hmem := List.find?_some he
      have := hfresh q (List.mem_cons_self q rest) e (List.mem_of_find?_eq_some he)
      simp at hmem
      exact this hmem
    rw [List.foldl_cons]
    show List.foldl _ (mapSet acc q.1 q.2) rest = acc ++ q :: rest
    rw [mapSet, if_neg (by simp [hnone])]
    have hnd' : (rest.map Prod.fst).Nodup := (List.nodup_cons.mp (by simpa using hnd)).2
    have hfresh' : ∀ p ∈ rest, ∀ e ∈ acc ++ [(q.1, q.2)], e.1 ≠ p.1 := by
      intro p hp e he
      rcases List.mem_append.mp he with h | h
      · exact hfresh p (List.mem_cons_of_mem q hp) e h
      · have hfst : e.1 = q.1 := by
          have he : e = (q.1, q.2) := by simpa using h
          rw [he]
        rw [hfst]
        intro hcontra
        have hq : q.1 ∉ rest.map Prod.fst := (List.nodup_cons.mp (by simpa using hnd)).1
        exact hq (by simpa [← hcontra] using List.mem_map_of_mem Prod.fst hp)
    have := IH (acc ++ [(q.1, q.2)]) hnd' hfresh'
    rw [this]
    simp

theorem insertAll_nodup_eq {K V : Type} [DecidableEq K] (pairs : List (K × V))
    (hnd : (pairs.map Prod.fst).Nodup) : insertAll pairs = pairs := by
  have := foldl_mapSet_fresh pairs [] hnd (by simp)
  simpa [insertAll] using this

theorem mapGet_of_mem {K V : Type} [DecidableEq K] :
    ∀ (m : List (K × V)) (k : K) (v : V), (m.map Prod.fst).Nodup →
    (k, v) ∈ m → mapGet m k = some v := by
  intro m
  induction m with
  | nil => intro k v _ h; cases h
  | cons e rest IH =>
    intro k v hnd hmem
    by_cases hk : e.1 = k
    · have : e = (k, v) := by
        rcases List.mem_cons.mp hmem with h | h
        · exact h.symm
        · exfalso
          have : k ∈ rest.map Prod.fst := by
            simpa using List.mem_map_of_mem Prod.fst h
          have hq : e.1 ∉ rest.map Prod.fst := (List.nodup_cons.mp (by simpa using hnd)).1
          rw [hk] at hq
          exact hq this
      rw [mapGet, List.find?_cons_of_pos _ (by simp [hk])]
      simp [this]
    · have hmem' : (k, v) ∈ rest := by
        rcases List.mem_cons.mp hmem with h | h
        · exact absurd (congrArg Prod.fst h.symm) hk
        · exact h
      rw [mapGet, List.find?_cons_of_neg _ (by simp [hk])]
      exact IH k v (List.nodup_cons.mp (by simpa using hnd)).2 hmem'

theorem foldl_mapDelete_take {K V : Type} [DecidableEq K] :
    ∀ (c : List (K × V)) (n : Nat), (c.map Prod.fst).Nodup →
    (c.take n).foldl (fun m e => mapDelete m e.1) c = c.drop n := by
  intro c
  induction c with
  | nil => intro n _; simp
  | cons e rest IH =>
    intro n hnd
    match n with
    | 0 => simp
    | Nat.succ m =>
      rw [List.take_succ_cons, List.foldl_cons, List.drop_succ_cons]
      have hdel : mapDelete (e :: rest) e.1 = rest := by
        rw [mapDelete, List.filter_cons, if_neg (by simp)]
        exact List.filter_eq_self.mpr (fun x hx => by
          have hq : e.1 ∉ rest.map Prod.fst := (List.nodup_cons.mp (by simpa using hnd)).1
          simp only [Bool.not_eq_true', decide_eq_false_iff_not]
          intro hcontra
          exact hq (by simpa [hcontra] using List.mem_map_of_mem Prod.fst hx))
      rw [hdel]
      exact IH m (List.nodup_cons.mp (by simpa using hnd)).2

theorem manageCache_eq_drop {K V : Type} [DecidableEq K] (c : List (K × V))
    (hnd : (c.map Prod.fst).Nodup) (hlen : MAX_CACHE_SIZE < c.length) :
    manageCache c = c.drop 200 := by
  rw [manageCache, if_pos hlen]
  exact foldl_mapDelete_take c (MAX_CACHE_SIZE * 2 / 10) hnd

/-- C6 (amended): after inserting `N ≤ cap` distinct entries all of them are
retrievable by `get`; once occupancy exceeds the cap, the sweep removes exactly
the oldest-inserted `200` entries — 20% of the *cap*, not of the current
occupancy — so the most-recently-inserted entries survive, and occupancy drops
to at most the cap only when at most `cap + 200` entries are present. -/
theorem cacheSweep_spec {K V : Type} [DecidableEq K] (pairs : List (K × V))
    (hnd : (pairs.map Prod.fst).Nodup) :
    (∀ p ∈ pairs, mapGet (insertAll pairs) p.1 = some p.2)
  ∧ (MAX_CACHE_SIZE < pairs.length →
      manageCache (insertAll pairs) = pairs.drop 200)
  ∧ (MAX_CACHE_SIZE < pairs.length → pairs.length ≤ MAX_CACHE_SIZE + 200 →
      (manageCache (insertAll pairs)).length ≤ MAX_CACHE_SIZE) := by
  rw [insertAll_nodup_eq pairs hnd]
  refine ⟨fun p hp => mapGet_of_mem pairs p.1 p.2 hnd (by simpa using hp),
    fun hlen => manageCache_eq_drop pairs hnd hlen, fun hlen hsmall => ?_⟩
  rw [manageCache_eq_drop pairs hnd hlen, List.length_drop]
  rw [MAX_CACHE_SIZE] at hsmall ⊢
  omega

/-- 1201 distinct cache entries, as would accumulate between two sweeps. -/
def bigPairs : List (Nat × Nat) := (List.range 1201).map (fun i => (i, i))

theorem bigPairs_keys_nodup : (bigPairs.map Prod.fst).Nodup := by
  rw [bigPairs, List.map_map]
  have : (Prod.fst ∘ fun i : Nat => (i, i)) = id := rfl
  rw [this, List.map_id]
  exact List.nodup_range 1201

/-- C6, counterexample: after inserting 1201 distinct entries, the sweep
removes only 200 of them (20% of the cap, not 20% of the entries), so
occupancy remains at 1001, strictly above the cap of 1000: the sweep does not
restore the cap. -/
theorem cacheSweep_counterexample :
    ¬ (manageCache (insertAll bigPairs)).length ≤ MAX_CACHE_SIZE := by
  rw [insertAll_nodup_eq bigPairs bigPairs_keys_nodup]
  rw [manageCache_eq_drop bigPairs bigPairs_keys_nodup (by simp [bigPairs, MAX_CACHE_SIZE])]
  simp [bigPairs, MAX_CACHE_SIZE]

theorem cacheSweep_spec_witness :
    (∀ p ∈ bigPairs, mapGet (insertAll bigPairs) p.1 = some p.2)
  ∧ (MAX_CACHE_SIZE < bigPairs.length →
      manageCache (insertAll bigPairs) = bigPairs.drop 200)
  ∧ (MAX_CACHE_SIZE < bigPairs.length → bigPairs.length ≤ MAX_CACHE_SIZE + 200 →
      (manageCache (insertAll bigPairs)).length ≤ MAX_CACHE_SIZE) :=
  cacheSweep_spec bigPairs bigPairs_keys_nodup

/-! ### Ingestion tail of `processDocument` (index.js lines 2629-2648)

After the chunks are embedded the function performs, in program order:
`uploadedDocuments.set(documentId, documentInfo)` (line 2641) and then
`await fs.writeJson(chunksPath, ...)` (line 2645).  We model the reachable
states as the scan of these two primitive effects over an ingestion state. -/

structure IngestState where
  catalog : List String
  files : List String
  deriving DecidableEq

inductive IngestStep where
  | registerCatalog (id : String)
  | persistFile (id : String)
  deriving DecidableEq

def applyStep (s : IngestState) : IngestStep → IngestState
  | .registerCatalog id => { s with catalog := s.catalog ++ [id] }
  | .persistFile id => { s with files := s.files ++ [id] }

/-- The order of the two side effects in `processDocument`: line 2641 registers
the summary in the in-memory catalog, line 2645 then writes the per-document
chunk file. -/
def processDocumentSteps (id : String) : List IngestStep :=
  [.registerCatalog id, .persistFile id]

/-- All states reachable while `processDocument` runs its persistence tail,
starting from `s0`: the initial state, the state between the two effects, and
the final state. -/
def traceStates (s0 : IngestState) (steps : List IngestStep) : List IngestState :=
  steps.scanl applyStep s0

/-- C1, counterexample: starting from an empty store, the state reached after
line 2641 and before line 2645 has the document in the catalog but no backing
file — the code registers first and persists second, so a reader can observe a
catalog entry whose backing file has not been written. -/
theorem processDocument_order_counterexample :
    ¬ (∀ s ∈ traceStates ⟨[], []⟩ (processDocumentSteps "doc-1"),
        ∀ x ∈ s.catalog, x ∈ s.files) := by
  intro h
  have hmem : (⟨["doc-1"], []⟩ : IngestState) ∈
      traceStates ⟨[], []⟩ (processDocumentSteps "doc-1") := by
    rw [traceStates, processDocumentSteps]
    simp [List.scanl, applyStep]
  have := h ⟨["doc-1"], []⟩ hmem "doc-1" (by simp)
  simp at this

/-- C1 (amended): `processDocument` registers the catalog entry *before*
persisting the backing file, so there is a reachable intermediate state in
which the catalog lists a document whose file is missing (the race that the
bounded read-retry in `searchUploadedDocuments` exists to paper over).  The
converse invariant does hold along the whole trace: a persisted file's id is
always already in the catalog, and on completion the document is in both. -/
theorem processDocument_order_spec (s0 : IngestState) (id : String)
    (h0 : ∀ x ∈ s0.files, x ∈ s0.catalog) (hid : id ∉ s0.files) :
    (∃ s ∈ traceStates s0 (processDocumentSteps id),
        id ∈ s.catalog ∧ id ∉ s.files)
  ∧ (∀ s ∈ traceStates s0 (processDocumentSteps id), ∀ x ∈ s.files, x ∈ s.catalog)
  ∧ (∀ s, (traceStates s0 (processDocumentSteps id)).getLast? = some s →
      id ∈ s.catalog ∧ id ∈ s.files) := by
  refine ⟨⟨{ s0 with catalog := s0.catalog ++ [id] }, ?_, by simp, by simpa using hid⟩,
    ?_, ?_⟩
  · rw [traceStates, processDocumentSteps]
    simp [List.scanl, applyStep]
  · intro s hs x hx
    rw [traceStates, processDocumentSteps] at hs
    simp [List.scanl, applyStep] at hs
    rcases hs with rfl | rfl | rfl
    · exact h0 x hx
    · simp
      exact Or.inl (h0 x hx)
    · simp at hx ⊢
      rcases hx with hx | rfl
      · exact Or.inl (h0 x hx)
      · exact Or.inr rfl
  · intro s hs
    rw [traceStates, processDocumentSteps] at hs
    simp [List.scanl, applyStep] at hs
    subst hs
    simp

/-- Witness for `processDocument_order_spec` at the empty initial store and a
concrete document id. -/
theorem processDocument_order_spec_witness :
    (∃ s ∈ traceStates ⟨[], []⟩ (processDocumentSteps "doc-w"),
        "doc-w" ∈ s.catalog ∧ "doc-w" ∉ s.files)
  ∧ (∀ s ∈ traceStates ⟨[], []⟩ (processDocumentSteps "doc-w"),
      ∀ x ∈ s.files, x ∈ s.catalog)
  ∧ (∀ s, (traceStates ⟨[], []⟩ (processDocumentSteps "doc-w")).getLast? = some s →
      "doc-w" ∈ s.catalog ∧ "doc-w" ∈ s.files) :=
  processDocument_order_spec ⟨[], []⟩ "doc-w" (by simp) (by simp)

/-! ### Prompt assembly and history update of `callAzureOpenAI`
(index.js lines 2865-2949)

The message list (lines 2901-2911) is the fixed system prompt, the fixed
source-usage instruction, a system message wrapping the formatted passages
(`contextBlock`, which stays at the placeholder `'No relevant sources found.'`
when retrieval yields nothing or throws), `prior.slice(-4)`, and the new user
message.  On completion success the user/assistant pair is appended to the
stored history (lines 2937-2941); on failure the error is rethrown (line 2947)
without touching the history. -/

inductive Role where
  | system
  | user
  | assistant
  deriving DecidableEq

structure ChatMsg where
  role : Role
  content : String
  deriving DecidableEq

def SYSTEM_PROMPT : String :=
  "You are a helpful, concise assistant on Telegram. Prefer short, clear answers. Cite sources when provided."

def sourcesInstruction : String :=
  "SOURCES below are excerpts from your knowledge base. When answering, (a) rely primarily on SOURCES, (b) quote concisely if helpful, and (c) cite like [#1]. If insufficient, say you do not know."

def noSourcesPlaceholder : String := "No relevant sources found."

/-- JS `Array.prototype.slice(-n)`: the last `n` elements (all of them when the
array is shorter). -/
def sliceLast {α : Type} (l : List α) (n : Nat) : List α :=
  l.drop (l.length - n)

/-- The message list built at lines 2901-2911. -/
def buildMessages (contextBlock : String) (prior : List ChatMsg)
    (userText : String) : List ChatMsg :=
  [ ⟨.system, SYSTEM_PROMPT⟩,
    ⟨.system, sourcesInstruction⟩,
    ⟨.system, "SOURCES:\n" ++ contextBlock⟩ ]
  ++ sliceLast prior 4
  ++ [⟨.user, userText⟩]

/-- C7: the prompt is always, in order, the fixed system prompt, the fixed
source-usage instruction, the system message with the formatted passages (or
the placeholder), then the last (at most) 4 stored prior messages — a suffix
of the stored history, so no older history appears — and finally the new user
message. -/
theorem buildMessages_spec (contextBlock : String) (prior : List ChatMsg)
    (userText : String) :
    buildMessages contextBlock prior userText =
      ⟨.system, SYSTEM_PROMPT⟩ :: ⟨.system, sourcesInstruction⟩ ::
      ⟨.system, "SOURCES:\n" ++ contextBlock⟩ ::
      (prior.drop (prior.length - 4) ++ [⟨.user, userText⟩])
  ∧ (prior.drop (prior.length - 4)).length = min 4 prior.length
  ∧ prior.drop (prior.length - 4) <:+ prior := by
  refine ⟨rfl, ?_, List.drop_suffix _ _⟩
  rw [List.length_drop]
  omega

/-- JS `r.data?.choices?.[0]?.message?.content?.trim() || '…'`: a missing
content or one that trims to the empty string falls back to the placeholder
glyph. -/
def extractReply (content : Option String) : String :=
  match content with
  | none => "…"
  | some s => if s.trim = "" then "…" else s.trim

/-- Model of `callAzureOpenAI(chatId, userText)`.  `complete` is the chat
completion upstream (already wrapped in its retry loop): it either fails
(retries exhausted) or returns the optional content of the first choice.
The result is the outcome paired with the conversation-history map after the
call. -/
def callAzureOpenAI (complete : List ChatMsg → Except String (Option String))
    (hist : Nat → List ChatMsg) (contextBlock : String) (chatId : Nat)
    (userText : String) : Except String String × (Nat → List ChatMsg) :=
  let prior := hist chatId
  let messages := buildMessages contextBlock prior userText
  match complete messages with
  | .error e => (.error e, hist)
  | .ok content =>
    let reply := extractReply content
    (.ok reply,
      Function.update hist chatId
        (prior ++ [⟨.user, userText⟩, ⟨.assistant, reply⟩]))

/-- C10: if the completion call fails after its retries, `callAzureOpenAI`
rethrows the error and every conversation's stored history is exactly as
before — neither the user turn nor an assistant turn is appended.  Only after
a successful completion is the user/assistant pair appended, in that order, to
that conversation's history, leaving all other conversations untouched. -/
theorem callAzureOpenAI_history_spec
    (complete : List ChatMsg → Except String (Option String))
    (hist : Nat → List ChatMsg) (contextBlock : String) (chatId : Nat)
    (userText : String) :
    (∀ e, complete (buildMessages contextBlock (hist chatId) userText) = .error e →
      callAzureOpenAI complete hist contextBlock chatId userText = (.error e, hist))
  ∧ (∀ content,
      complete (buildMessages contextBlock (hist chatId) userText) = .ok content →
      (callAzureOpenAI complete hist contextBlock chatId userText).1 =
        .ok (extractReply content)
      ∧ (callAzureOpenAI complete hist contextBlock chatId userText).2 chatId =
          hist chatId ++ [⟨.user, userText⟩, ⟨.assistant, extractReply content⟩]
      ∧ ∀ c, c ≠ chatId →
          (callAzureOpenAI complete hist contextBlock chatId userText).2 c = hist c) := by
  constructor
  · intro e he
    rw [callAzureOpenAI]
    simp only [he]
  · intro content hc
    rw [callAzureOpenAI]
    simp only [hc]
    refine ⟨trivial, ?_, ?_⟩
    · simp [Function.update]
    · intro c hcne
      simp [Function.update, hcne]

/-- Completion stub that always fails (retries exhausted). -/
def completeDown : List ChatMsg → Except String (Option String) :=
  fun _ => .error "http 500"

/-- Completion stub that succeeds with padded content. -/
def completeHello : List ChatMsg → Except String (Option String) :=
  fun _ => .ok (some " hello ")

theorem callAzureOpenAI_history_spec_witness :
    callAzureOpenAI completeDown (fun _ => []) noSourcesPlaceholder 7 "hi" =
      (.error "http 500", fun _ => [])
  ∧ (callAzureOpenAI completeHello (fun _ => []) noSourcesPlaceholder 7 "hi").2 7 =
      [⟨.user, "hi"⟩, ⟨.assistant, extractReply (some " hello ")⟩] := by
  constructor
  · exact (callAzureOpenAI_history_spec completeDown (fun _ => [])
      noSourcesPlaceholder 7 "hi").1 "http 500" rfl
  · have h := (callAzureOpenAI_history_spec completeHello (fun _ => [])
      noSourcesPlaceholder 7 "hi").2 (some " hello ") rfl
    simpa using h.2.1

/-! ### Retrieval fusion (index.js lines 2683-2709)

`retrieve` concatenates the remote (`searchAzureIndex`) and local
(`searchUploadedDocuments`) result sets, sorts the concatenation descending by
a fused score that adds `0.01` to remote results, and keeps the first `k`.
The two result sets are inputs of the model (they come from independent I/O).
JS `Array.prototype.sort` with this comparator produces some ordering
consistent with the comparator; we model it with the stable `insertionSort`.
`(a.similarity || 0)` coincides with `a.similarity` for every present numeric
score (`0 || 0` is `0`), so the fallback is dropped from the model. -/

inductive Source where
  | azure_search
  | uploaded_document
  deriving DecidableEq

structure Passage (α : Type) where
  title : String
  url : String
  content : String
  source : Source
  similarity : α
  documentId : Option String
  deriving DecidableEq

instance sortKeyDecidable {α β : Type} [LinearOrder β] (key : α → β) :
    DecidableRel (fun x y : α => key y ≤ key x) :=
  fun x y => inferInstanceAs (Decidable (key y ≤ key x))

instance sortKeyTotal {α β : Type} [LinearOrder β] (key : α → β) :
    IsTotal α (fun x y => key y ≤ key x) :=
  ⟨fun a b => le_total (key b) (key a)⟩

instance sortKeyTrans {α β : Type} [LinearOrder β] (key : α → β) :
    IsTrans α (fun x y => key y ≤ key x) :=
  ⟨fun _ _ _ hab hbc => le_trans hbc hab⟩

/-- `.sort((a, b) => keyB - keyA)`: sort descending by a numeric key. -/
def sortByDesc {α β : Type} [LinearOrder β] (key : α → β) (l : List α) :
    List α :=
  l.insertionSort (fun x y => key y ≤ key x)

theorem sortByDesc_sorted {α β : Type} [LinearOrder β] (key : α → β)
    (l : List α) : (sortByDesc key l).Sorted (fun x y => key y ≤ key x) :=
  List.sorted_insertionSort _ l

theorem sortByDesc_length {α β : Type} [LinearOrder β] (key : α → β)
    (l : List α) : (sortByDesc key l).length = l.length :=
  List.length_insertionSort _ l

/-- The fusion score of lines 2704-2705: remote-index passages get a `+0.01`
bonus. -/
def fusedScore (p : Passage ℚ) : ℚ :=
  if p.source = Source.azure_search then p.similarity + 1 / 100
  else p.similarity

/-- Model of the fusion tail of `retrieve` (lines 2698-2708). -/
def retrieveFusion (azureResults uploadedResults : List (Passage ℚ))
    (k : Nat) : List (Passage ℚ) :=
  (sortByDesc fusedScore (azureResults ++ uploadedResults)).take k

theorem retrieveFusion_sorted (azureResults uploadedResults : List (Passage ℚ))
    (k : Nat) : (retrieveFusion azureResults uploadedResults k).Sorted
      (fun p q => fusedScore q ≤ fusedScore p) :=
  List.Pairwise.sublist (List.take_sublist _ _)
    (sortByDesc_sorted fusedScore (azureResults ++ uploadedResults))

/-- C4: the fusion returns at most `k` passages and at least
`min k (total available across both result sets)` — in fact exactly that
minimum. -/
theorem retrieveFusion_length (azureResults uploadedResults : List (Passage ℚ))
    (k : Nat) :
    (retrieveFusion azureResults uploadedResults k).length ≤ k
  ∧ min k (azureResults.length + uploadedResults.length) ≤
      (retrieveFusion azureResults uploadedResults k).length := by
  have h : (retrieveFusion azureResults uploadedResults k).length =
      min k (azureResults.length + uploadedResults.length) := by
    rw [retrieveFusion, List.length_take, sortByDesc_length, List.length_append]
  rw [h]
  exact ⟨min_le_left _ _, le_rfl⟩

/-- C3: among the passages returned by the fusion, a remote-index passage
never ranks strictly below a local-store passage with the same underlying
similarity score, because the `+0.01` bonus makes its fused score strictly
larger. -/
theorem retrieveFusion_source_tiebreak
    (azureResults uploadedResults : List (Passage ℚ)) (k i j : Nat)
    (p q : Passage ℚ)
    (hgi : (retrieveFusion azureResults uploadedResults k).get? i = some p)
    (hgj : (retrieveFusion azureResults uploadedResults k).get? j = some q)
    (hsi : p.source = Source.azure_search)
    (hsj : q.source = Source.uploaded_document)
    (hsim : p.similarity = q.similarity) :
    i ≤ j := by
  obtain ⟨hi, hei⟩ := List.get?_eq_some.mp hgi
  obtain ⟨hj, hej⟩ := List.get?_eq_some.mp hgj
  by_contra hcon
  push_neg at hcon
  have hs := retrieveFusion_sorted azureResults uploadedResults k
  have hrel := hs.rel_get_of_lt
    (show (⟨j, hj⟩ : Fin _) < ⟨i, hi⟩ from hcon)
  rw [hei, hej] at hrel
  rw [fusedScore, fusedScore, if_pos hsi, if_neg (by rw [hsj]; simp), hsim] at hrel
  linarith

/-- A remote-index passage with similarity `1/2`. -/
def passA : Passage ℚ :=
  ⟨"Azure doc", "https://example.com/a", "remote content", .azure_search, 1 / 2, none⟩

/-- A local-store passage with the same similarity `1/2`. -/
def passU : Passage ℚ :=
  ⟨"upload.pdf", "uploaded://d1", "local content", .uploaded_document, 1 / 2, some "d1"⟩

theorem retrieveFusion_pair_eval :
    retrieveFusion [passA] [passU] 2 = [passA, passU] := by
  rw [retrieveFusion, sortByDesc]
  norm_num [List.insertionSort, List.orderedInsert, fusedScore, passA, passU]
  rw [if_neg (show ¬(Source.uploaded_document = Source.azure_search) from by simp)]
  rw [if_pos (by norm_num : (1 : ℚ) / 2 ≤ 51 / 100)]
  rfl

theorem retrieveFusion_source_tiebreak_witness :
    retrieveFusion [passA] [passU] 2 = [passA, passU] ∧ (0 : Nat) ≤ 1 :=
  ⟨retrieveFusion_pair_eval,
    retrieveFusion_source_tiebreak [passA] [passU] 2 0 1 passA passU
      (by rw [retrieveFusion_pair_eval]; rfl) (by rw [retrieveFusion_pair_eval]; rfl)
      rfl rfl rfl⟩

/-! ### Chunking (index.js lines 2569-2583)

Line 2569 normalizes the extracted text: `text.replace(/\s+/g, ' ').trim()`.
Lines 2572-2581 run a sliding window of size 1000 stepping by
`chunkSize - overlap = 800` and keep a window iff its trimmed length strictly
exceeds 50.  Texts are modelled as `List Char`. -/

/-- JS `\s` for the character set that occurs in extracted document text. -/
def isWs (c : Char) : Bool :=
  c == ' ' || c == '\t' || c == '\n' || c == '\r'

/-- `replace(/\s+/g, ' ')`: collapse each whitespace run into a single space.
`prevWs` records whether the previous input character was inside a run. -/
def collapseAux : Bool → List Char → List Char
  | _, [] => []
  | prevWs, c :: rest =>
    if isWs c then
      if prevWs then collapseAux true rest
      else ' ' :: collapseAux true rest
    else c :: collapseAux false rest

def collapseWs (l : List Char) : List Char := collapseAux false l

/-- JS `String.prototype.trim` on a character list. -/
def trimChars (l : List Char) : List Char :=
  ((l.dropWhile isWs).reverse.dropWhile isWs).reverse

/-- Line 2569: `const cleanedText = text.replace(/\s+/g, ' ').trim();`. -/
def cleanText (l : List Char) : List Char := trimChars (collapseWs l)

def chunkSize : Nat := 1000
def overlap : Nat := 200

/-- The loop of lines 2576-2581, starting at window position `i`. -/
def chunkifyAux (t : List Char) (i : Nat) : List (List Char) :=
  if _h : i < t.length then
    if 50 < (trimChars ((t.drop i).take chunkSize)).length then
      ((t.drop i).take chunkSize) :: chunkifyAux t (i + (chunkSize - overlap))
    else chunkifyAux t (i + (chunkSize - overlap))
  else []
termination_by t.length - i
decreasing_by
  all_goals
    simp only [chunkSize, overlap]
    omega

/-- The chunk list produced for a cleaned text. -/
def chunkText (t : List Char) : List (List Char) := chunkifyAux t 0

/-- Concatenating the fragments minus their overlaps: the first fragment
whole, each later fragment with its leading `overlap` characters removed. -/
def reconstructFromChunks : List (List Char) → List Char
  | [] => []
  | c :: rest => c ++ (rest.map (fun d => d.drop overlap)).flatten

/-- No two adjacent whitespace characters. -/
def wsSeparated (t : List Char) : Prop :=
  t.Chain' (fun a b => isWs a = false ∨ isWs b = false)

/-- What `replace(/\s+/g, ' ').trim()` guarantees about its output. -/
structure Cleaned (t : List Char) : Prop where
  chain : wsSeparated t
  noLead : ∀ c, t.head? = some c → isWs c = false
  noTrail : ∀ c, t.reverse.head? = some c → isWs c = false

theorem collapseAux_chain (l : List Char) : ∀ b : Bool,
    (b = true → ∀ c, (collapseAux b l).head? = some c → isWs c = false)
  ∧ wsSeparated (collapseAux b l) := by
  induction l with
  | nil =>
    intro b
    refine ⟨fun _ c h => by simp [collapseAux] at h, ?_⟩
    simp [collapseAux, wsSeparated]
  | cons x rest IH =>
    intro b
    by_cases hx : isWs x = true
    · cases b with
      | true =>
        refine ⟨fun _ => ?_, ?_⟩ <;> simp only [collapseAux, hx, if_pos]
        · exact (IH true).1 rfl
        · exact (IH true).2
      | false =>
        constructor
        · intro h; simp at h
        · simp only [collapseAux, hx, if_true, Bool.false_eq_true, if_false]
          rw [wsSeparated, List.chain'_cons']
          exact ⟨fun y hy => Or.inr ((IH true).1 rfl y hy), (IH true).2⟩
    · have hx' : isWs x = false := by simpa using hx
      constructor
      · intro _ c h
        simp only [collapseAux, hx', Bool.false_eq_true, if_false] at h
        simp at h
        rw [← h]
        exact hx'
      · simp only [collapseAux, hx', Bool.false_eq_true, if_false]
        rw [wsSeparated, List.chain'_cons']
        exact ⟨fun y _ => Or.inl hx', (IH false).2⟩

theorem dropWhile_head_not (p : Char → Bool) :
    ∀ (l : List Char) (c : Char), (l.dropWhile p).head? = some c → p c = false := by
  intro l
  induction l with
  | nil => intro c h; simp at h
  | cons x rest IH =>
    intro c h
    by_cases hx : p x = true
    · rw [List.dropWhile_cons, if_pos hx] at h
      exact IH c h
    · rw [List.dropWhile_cons, if_neg hx] at h
      simp at h
      rw [← h]
      simpa using hx

theorem dropWhile_eq_self_of_head (p : Char → Bool) (l : List Char)
    (h : ∀ c, l.head? = some c → p c = false) : l.dropWhile p = l := by
  cases l with
  | nil => rfl
  | cons x rest => simp [List.dropWhile_cons, h x rfl]

theorem wsSeparated_reverse {t : List Char} (h : wsSeparated t) :
    wsSeparated t.reverse := by
  rw [wsSeparated, List.chain'_reverse]
  exact List.Chain'.imp (fun a b hab => hab.symm) h

theorem wsSeparated_trim {t : List Char} (h : wsSeparated t) :
    wsSeparated (trimChars t) := by
  rw [trimChars]
  exact wsSeparated_reverse
    (List.Chain'.suffix (wsSeparated_reverse (List.Chain'.suffix h (List.dropWhile_suffix isWs)))
      (List.dropWhile_suffix isWs))

theorem isPrefix_head {α : Type} {l₁ l₂ : List α} (h : l₁ <+: l₂) (c : α)
    (hc : l₁.head? = some c) : l₂.head? = some c := by
  rcases h with ⟨s, rfl⟩
  cases l₁ with
  | nil => simp at hc
  | cons x xs => simpa using hc

theorem trim_noLead (t : List Char) (c : Char)
    (h : (trimChars t).head? = some c) : isWs c = false := by
  have hpre : trimChars t <+: t.dropWhile isWs := by
    obtain ⟨pre, hpre⟩ :
        ((t.dropWhile isWs).reverse.dropWhile isWs) <:+ (t.dropWhile isWs).reverse :=
      List.dropWhile_suffix isWs
    refine ⟨pre.reverse, ?_⟩
    have hrev := congrArg List.reverse hpre
    simpa [trimChars] using hrev
  exact dropWhile_head_not isWs t c (isPrefix_head hpre c h)

theorem trim_noTrail (t : List Char) (c : Char)
    (h : (trimChars t).reverse.head? = some c) : isWs c = false := by
  rw [trimChars, List.reverse_reverse] at h
  exact dropWhile_head_not isWs _ c h

theorem cleaned_cleanText (l : List Char) : Cleaned (cleanText l) := by
  refine ⟨?_, trim_noLead _, trim_noTrail _⟩
  exact wsSeparated_trim (collapseAux_chain l false).2

theorem length_dropWhile_ge {t : List Char} (h : wsSeparated t) :
    t.length - 1 ≤ (t.dropWhile isWs).length := by
  rcases t with _ | ⟨x, _ | ⟨y, rest⟩⟩
  · simp
  · by_cases hx : isWs x = true <;> simp [List.dropWhile_cons, hx]
  · by_cases hx : isWs x = true
    · have hy : isWs y = false := by
        rcases (List.chain'_cons.mp h).1 with h1 | h2
        · rw [hx] at h1; cases h1
        · exact h2
      rw [List.dropWhile_cons, if_pos hx, List.dropWhile_cons, if_neg (by simp [hy])]
      simp
    · rw [List.dropWhile_cons, if_neg hx]
      simp

theorem trim_length_le (t : List Char) : (trimChars t).length ≤ t.length := by
  have h1 : (t.dropWhile isWs).length ≤ t.length :=
    (List.dropWhile_suffix isWs).length_le
  have h2 : ((t.dropWhile isWs).reverse.dropWhile isWs).length ≤
      (t.dropWhile isWs).reverse.length :=
    (List.dropWhile_suffix isWs).length_le
  rw [trimChars, List.length_reverse]
  rw [List.length_reverse] at h2
  omega

theorem trim_length_ge {t : List Char} (h : wsSeparated t) :
    t.length - 2 ≤ (trimChars t).length := by
  have h1 := length_dropWhile_ge h
  have h2 := length_dropWhile_ge
    (wsSeparated_reverse (List.Chain'.suffix h (List.dropWhile_suffix isWs)))
  rw [trimChars, List.length_reverse]
  rw [List.length_reverse] at h2
  omega

theorem suffix_noTrail {t : List Char}
    (hnt : ∀ c, t.reverse.head? = some c → isWs c = false) (i : Nat) :
    ∀ c, (t.drop i).reverse.head? = some c → isWs c = false := by
  intro c h
  apply hnt
  have hpre : (t.drop i).reverse <+: t.reverse :=
    List.reverse_prefix.mpr (List.drop_suffix i t)
  exact isPrefix_head hpre c h

theorem trim_length_ge_of_noTrail {t : List Char} (hch : wsSeparated t)
    (hnt : ∀ c, t.reverse.head? = some c → isWs c = false) :
    t.length - 1 ≤ (trimChars t).length := by
  have h1 := length_dropWhile_ge hch
  have hsame : (t.dropWhile isWs).reverse.dropWhile isWs =
      (t.dropWhile isWs).reverse := by
    apply dropWhile_eq_self_of_head
    intro c hcr
    apply hnt
    have hpre : (t.dropWhile isWs).reverse <+: t.reverse :=
      List.reverse_prefix.mpr (List.dropWhile_suffix isWs)
    exact isPrefix_head hpre c hcr
  rw [trimChars, hsame, List.reverse_reverse]
  exact h1

theorem trim_eq_self {t : List Char}
    (hlead : ∀ c, t.head? = some c → isWs c = false)
    (htrail : ∀ c, t.reverse.head? = some c → isWs c = false) :
    trimChars t = t := by
  rw [trimChars, dropWhile_eq_self_of_head isWs t hlead,
    dropWhile_eq_self_of_head isWs t.reverse htrail, List.reverse_reverse]

theorem window_kept_of_full {t : List Char} (hch : wsSeparated t) (i : Nat)
    (h : chunkSize ≤ t.length - i) :
    50 < (trimChars ((t.drop i).take chunkSize)).length := by
  have hlen : ((t.drop i).take chunkSize).length = chunkSize := by
    rw [List.length_take, List.length_drop]
    omega
  have hge := trim_length_ge (List.Chain'.take (List.Chain'.drop hch i) chunkSize)
  rw [hlen] at hge
  have hcs : chunkSize = 1000 := rfl
  omega

theorem window_kept_of_end {t : List Char} (hch : wsSeparated t)
    (hnt : ∀ c, t.reverse.head? = some c → isWs c = false) (i : Nat)
    (hle : t.length - i ≤ chunkSize) (hgt : 51 < t.length - i) :
    50 < (trimChars ((t.drop i).take chunkSize)).length := by
  have hcc : (t.drop i).take chunkSize = t.drop i :=
    List.take_of_length_le (by rw [List.length_drop]; exact hle)
  rw [hcc]
  have hge := trim_length_ge_of_noTrail (List.Chain'.drop hch i) (suffix_noTrail hnt i)
  rw [List.length_drop] at hge
  omega

theorem first_window_kept {t : List Char} (hc : Cleaned t) (h51 : 51 ≤ t.length) :
    50 < (trimChars ((t.drop 0).take chunkSize)).length := by
  rw [List.drop_zero]
  by_cases hbig : chunkSize ≤ t.length
  · have hlen : (t.take chunkSize).length = chunkSize := by
      rw [List.length_take]; omega
    have hge := trim_length_ge (List.Chain'.take hc.chain chunkSize)
    rw [hlen] at hge
    have hcs : chunkSize = 1000 := rfl
    omega
  · have hcc : t.take chunkSize = t := List.take_of_length_le (by omega)
    rw [hcc, trim_eq_self hc.noLead hc.noTrail]
    omega

theorem chunkifyAux_flatten {t : List Char} (hc : Cleaned t) :
    ∀ n i, t.length - i = n →
    ((chunkifyAux t i).map (fun d => d.drop overlap)).flatten =
      t.drop (i + overlap) := by
  intro n
  induction n using Nat.strong_induction_on with
  | _ n IH =>
    intro i hn
    by_cases hi : i < t.length
    · have hrec := IH (t.length - (i + (chunkSize - overlap)))
        (by simp only [chunkSize, overlap] at *; omega)
        (i + (chunkSize - overlap)) rfl
      rw [chunkifyAux, dif_pos hi]
      by_cases hfull : chunkSize ≤ t.length - i
      · rw [if_pos (window_kept_of_full hc.chain i hfull)]
        rw [List.map_cons, List.flatten_cons, hrec]
        rw [List.drop_take, List.drop_drop]
        have harith : i + (chunkSize - overlap) + overlap =
            i + overlap + (chunkSize - overlap) := by
          have h1 : chunkSize = 1000 := rfl
          have h2 : overlap = 200 := rfl
          omega
        rw [harith, ← List.drop_drop (chunkSize - overlap) (i + overlap) t]
        exact List.take_append_drop _ _
      · by_cases hmid : overlap < t.length - i
        · have hkept := window_kept_of_end hc.chain hc.noTrail i (by omega)
            (by simp only [overlap] at hmid; omega)
          rw [if_pos hkept]
          rw [List.map_cons, List.flatten_cons, hrec]
          have hcc : (t.drop i).take chunkSize = t.drop i :=
            List.take_of_length_le (by rw [List.length_drop]; omega)
          rw [hcc, List.drop_drop]
          have hnil : t.drop (i + (chunkSize - overlap) + overlap) = [] :=
            List.drop_eq_nil_of_le (by simp only [chunkSize, overlap] at *; omega)
          rw [hnil, List.append_nil]
        · have hnil1 : t.drop (i + (chunkSize - overlap) + overlap) = [] :=
            List.drop_eq_nil_of_le (by simp only [chunkSize, overlap] at *; omega)
          have hnil2 : t.drop (i + overlap) = [] :=
            List.drop_eq_nil_of_le (by simp only [overlap] at *; omega)
          have hdropnil : ((t.drop i).take chunkSize).drop overlap = [] :=
            List.drop_eq_nil_of_le (by
              rw [List.length_take, List.length_drop]
              simp only [chunkSize, overlap] at *
              omega)
          by_cases hkeep : 50 < (trimChars ((t.drop i).take chunkSize)).length
          · rw [if_pos hkeep, List.map_cons, List.flatten_cons, hrec, hdropnil,
              hnil1, hnil2]
            rfl
          · rw [if_neg hkeep, hrec, hnil1, hnil2]
    · rw [chunkifyAux, dif_neg hi]
      simp only [List.map_nil, List.flatten_nil]
      exact (List.drop_eq_nil_of_le (by omega)).symm

theorem chunkifyAux_min_length {t : List Char} :
    ∀ n i, t.length - i = n → ∀ c ∈ chunkifyAux t i, 50 ≤ c.length := by
  intro n
  induction n using Nat.strong_induction_on with
  | _ n IH =>
    intro i hn c hmem
    by_cases hi : i < t.length
    · rw [chunkifyAux, dif_pos hi] at hmem
      by_cases hkeep : 50 < (trimChars ((t.drop i).take chunkSize)).length
      · rw [if_pos hkeep] at hmem
        rcases List.mem_cons.mp hmem with rfl | hmem'
        · have := trim_length_le ((t.drop i).take chunkSize)
          omega
        · exact IH (t.length - (i + (chunkSize - overlap)))
            (by simp only [chunkSize, overlap] at *; omega) _ rfl c hmem'
      · rw [if_neg hkeep] at hmem
        exact IH (t.length - (i + (chunkSize - overlap)))
          (by simp only [chunkSize, overlap] at *; omega) _ rfl c hmem
    · rw [chunkifyAux, dif_neg hi] at hmem
      cases hmem

theorem chunkText_reconstruct {t : List Char} (hc : Cleaned t)
    (h : t.length = 0 ∨ 51 ≤ t.length) :
    reconstructFromChunks (chunkText t) = t := by
  rcases h with h0 | h51
  · have ht : t = [] := List.length_eq_zero.mp h0
    subst ht
    rw [chunkText, chunkifyAux, dif_neg (by simp)]
    rfl
  · have h0lt : 0 < t.length := by omega
    rw [chunkText, chunkifyAux, dif_pos h0lt, if_pos (first_window_kept hc h51)]
    rw [reconstructFromChunks]
    rw [chunkifyAux_flatten hc (t.length - (0 + (chunkSize - overlap)))
      (0 + (chunkSize - overlap)) rfl]
    rw [List.drop_zero]
    have harith : 0 + (chunkSize - overlap) + overlap = chunkSize := by
      simp only [chunkSize, overlap]
    rw [harith]
    exact List.take_append_drop chunkSize t

/-- C2 (amended): the chunking of `processDocument` never produces a fragment
shorter than 50 characters; and concatenating the produced fragments minus
their 200-character overlaps reconstructs the whitespace-normalized source
text *provided* the normalized text is empty or at least 51 characters long —
a normalized text of length 1..50 is discarded entirely as sub-minimum noise,
so no fragments are produced and reconstruction fails for it. -/
theorem chunkText_spec (text : List Char) :
    (∀ c ∈ chunkText (cleanText text), 50 ≤ c.length)
  ∧ ((cleanText text).length = 0 ∨ 51 ≤ (cleanText text).length →
      reconstructFromChunks (chunkText (cleanText text)) = cleanText text) := by
  refine ⟨fun c hmem => ?_, fun h => chunkText_reconstruct (cleaned_cleanText text) h⟩
  exact chunkifyAux_min_length ((cleanText text).length - 0) 0 rfl c hmem

/-- A ten-character extracted text, too short for the 50-character noise
floor. -/
def shortText : List Char := ['a', 'b', 'c', 'd', 'e', 'f', 'g', 'h', 'i', 'j']

/-- C2, counterexample: for a ten-character document text the single window is
discarded as noise, so the chunk list is empty and concatenating the fragments
does not reconstruct the normalized text. -/
theorem chunkText_counterexample :
    reconstructFromChunks (chunkText (cleanText shortText)) ≠ cleanText shortText := by
  have hclean : cleanText shortText = shortText := rfl
  rw [hclean]
  have hchunks : chunkText shortText = [] := by
    rw [chunkText, chunkifyAux, dif_pos (by simp [shortText])]
    rw [if_neg (by simp [shortText, trimChars, chunkSize, List.dropWhile, isWs])]
    rw [chunkifyAux, dif_neg (by simp [shortText, chunkSize, overlap])]
  rw [hchunks]
  simp [reconstructFromChunks, shortText]

/-- A 60-character cleaned text, long enough to produce one fragment. -/
def demoText : List Char :=
  ['a', 'b', 'c', 'd', 'e', 'f', 'g', 'h', 'i', 'j',
   'a', 'b', 'c', 'd', 'e', 'f', 'g', 'h', 'i', 'j',
   'a', 'b', 'c', 'd', 'e', 'f', 'g', 'h', 'i', 'j',
   'a', 'b', 'c', 'd', 'e', 'f', 'g', 'h', 'i', 'j',
   'a', 'b', 'c', 'd', 'e', 'f', 'g', 'h', 'i', 'j',
   'a', 'b', 'c', 'd', 'e', 'f', 'g', 'h', 'i', 'j']

theorem chunkText_spec_witness :
    ((cleanText demoText).length = 0 ∨ 51 ≤ (cleanText demoText).length)
  ∧ reconstructFromChunks (chunkText (cleanText demoText)) = cleanText demoText := by
  have hlen : (cleanText demoText).length = 60 := rfl
  refine ⟨Or.inr (by rw [hlen]; omega), ?_⟩
  exact (chunkText_spec demoText).2 (Or.inr (by rw [hlen]; omega))

/-! ### Cosine similarity (index.js lines 2829-2862)

The accumulators are exact (IEEE-double rounding aside) sums of products of
vector components, modelled over `ℚ`; `Math.sqrt` and the final division are
real-valued.  The loop updates `dotProduct`, `normA`, `normB` at index `i` and
then breaks early when `i > 100 && Math.abs(normA - normB) > 10`; similarities
not exceeding `0.05` are floored to `0`. -/

structure SimAcc where
  dot : ℚ
  normA : ℚ
  normB : ℚ
  early : Bool

/-- The loop of lines 2841-2854, processing the component pairs from index
`i` on with the given accumulator values. -/
def simLoop : Nat → List (ℚ × ℚ) → ℚ → ℚ → ℚ → SimAcc
  | _, [], d, na, nb => ⟨d, na, nb, false⟩
  | i, (a, b) :: rest, d, na, nb =>
    if 100 < i ∧ 10 < |na + a * a - (nb + b * b)| then
      ⟨d + a * b, na + a * a, nb + b * b, true⟩
    else
      simLoop (i + 1) rest (d + a * b) (na + a * a) (nb + b * b)

/-- Lines 2856-2861 applied to the loop result: return `0` on early
termination or a zero norm, otherwise divide the dot product by the product of
the root norms and floor results not exceeding `0.05` to `0`. -/
noncomputable def cosineOfAcc (r : SimAcc) : ℝ :=
  if r.early = true ∨ r.normA = 0 ∨ r.normB = 0 then 0
  else
    if 1 / 20 < (r.dot : ℝ) / (Real.sqrt (r.normA : ℝ) * Real.sqrt (r.normB : ℝ))
    then (r.dot : ℝ) / (Real.sqrt (r.normA : ℝ) * Real.sqrt (r.normB : ℝ))
    else 0

/-- Model of `calculateCosineSimilarity(vecA, vecB)`. -/
noncomputable def calculateCosineSimilarity (vecA vecB : List ℚ) : ℝ :=
  if vecA.length ≠ vecB.length then 0
  else cosineOfAcc (simLoop 0 (vecA.zip vecB) 0 0 0)

theorem simLoop_swap : ∀ (l : List (ℚ × ℚ)) (i : Nat) (d na nb : ℚ),
    simLoop i (l.map Prod.swap) d nb na =
      ⟨(simLoop i l d na nb).dot, (simLoop i l d na nb).normB,
        (simLoop i l d na nb).normA, (simLoop i l d na nb).early⟩ := by
  intro l
  induction l with
  | nil => intro i d na nb; rfl
  | cons p rest IH =>
    intro i d na nb
    obtain ⟨a, b⟩ := p
    show simLoop i ((b, a) :: rest.map Prod.swap) d nb na = _
    rw [simLoop, simLoop]
    rw [show b * a = a * b from mul_comm b a,
      show |nb + b * b - (na + a * a)| = |na + a * a - (nb + b * b)| from
        abs_sub_comm _ _]
    by_cases hcond : 100 < i ∧ 10 < |na + a * a - (nb + b * b)|
    · rw [if_pos hcond, if_pos hcond]
    · rw [if_neg hcond, if_neg hcond]
      exact IH (i + 1) (d + a * b) (na + a * a) (nb + b * b)

theorem simLoop_invariant : ∀ (l : List (ℚ × ℚ)) (i : Nat) (d na nb : ℚ),
    d ^ 2 ≤ na * nb → 0 ≤ na → 0 ≤ nb →
    (simLoop i l d na nb).dot ^ 2 ≤
        (simLoop i l d na nb).normA * (simLoop i l d na nb).normB
      ∧ 0 ≤ (simLoop i l d na nb).normA ∧ 0 ≤ (simLoop i l d na nb).normB := by
  intro l
  induction l with
  | nil => intro i d na nb h1 h2 h3; exact ⟨h1, h2, h3⟩
  | cons p rest IH =>
    intro i d na nb h1 h2 h3
    obtain ⟨a, b⟩ := p
    have hstep : (d + a * b) ^ 2 ≤ (na + a * a) * (nb + b * b) := by
      rcases eq_or_lt_of_le h2 with hna0 | hna_pos
      · have hd : d = 0 := by nlinarith [sq_nonneg d]
        subst hd
        rw [← hna0]
        nlinarith [mul_nonneg h3 (sq_nonneg a), sq_nonneg (a * b)]
      · have key : 0 ≤ na * (na * b * b + a * a * nb - 2 * (a * b) * d) := by
          nlinarith [sq_nonneg (na * b - a * d),
            mul_nonneg (sub_nonneg.mpr h1) (sq_nonneg a)]
        have key2 : 0 ≤ na * b * b + a * a * nb - 2 * (a * b) * d := by
          by_contra hneg
          push_neg at hneg
          nlinarith [mul_pos hna_pos (neg_pos.mpr hneg)]
        nlinarith [h1, key2]
    have hna : 0 ≤ na + a * a := by nlinarith [sq_nonneg a]
    have hnb : 0 ≤ nb + b * b := by nlinarith [sq_nonneg b]
    rw [simLoop]
    by_cases hcond : 100 < i ∧ 10 < |na + a * a - (nb + b * b)|
    · rw [if_pos hcond]
      exact ⟨hstep, hna, hnb⟩
    · rw [if_neg hcond]
      exact IH (i + 1) _ _ _ hstep hna hnb

/-- Sum of squared components. -/
def sumSq (v : List ℚ) : ℚ := (v.map (fun a => a * a)).sum

theorem sumSq_nonneg (v : List ℚ) : 0 ≤ sumSq v := by
  induction v with
  | nil => simp [sumSq]
  | cons a rest IH =>
    have h : sumSq (a :: rest) = a * a + sumSq rest := by simp [sumSq]
    rw [h]
    nlinarith [sq_nonneg a]

theorem sumSq_pos {v : List ℚ} (h : ∃ x ∈ v, x ≠ 0) : 0 < sumSq v := by
  induction v with
  | nil => simp at h
  | cons a rest IH =>
    have hc : sumSq (a :: rest) = a * a + sumSq rest := by simp [sumSq]
    rw [hc]
    obtain ⟨x, hx, hx0⟩ := h
    rcases List.mem_cons.mp hx with rfl | hx'
    · have : 0 < x * x := mul_self_pos.mpr hx0
      nlinarith [sumSq_nonneg rest]
    · have : 0 < sumSq rest := IH ⟨x, hx', hx0⟩
      nlinarith [sq_nonneg a]

theorem simLoop_diag : ∀ (v : List ℚ) (i : Nat) (d n : ℚ),
    simLoop i (v.zip v) d n n = ⟨d + sumSq v, n + sumSq v, n + sumSq v, false⟩ := by
  intro v
  induction v with
  | nil =>
    intro i d n
    show simLoop i [] d n n = _
    rw [simLoop]
    have h : sumSq [] = 0 := rfl
    rw [h]
    simp only [SimAcc.mk.injEq]
    refine ⟨by ring, by ring, by ring, trivial⟩
  | cons a rest IH =>
    intro i d n
    show simLoop i ((a, a) :: rest.zip rest) d n n = _
    rw [simLoop]
    rw [if_neg (by simp)]
    rw [IH (i + 1) (d + a * a) (n + a * a)]
    have hs : sumSq (a :: rest) = a * a + sumSq rest := by simp [sumSq]
    rw [hs]
    simp only [SimAcc.mk.injEq]
    refine ⟨by ring, by ring, by ring, trivial⟩

theorem cosineOfAcc_swap (d na nb : ℚ) (e : Bool) :
    cosineOfAcc ⟨d, nb, na, e⟩ = cosineOfAcc ⟨d, na, nb, e⟩ := by
  rw [cosineOfAcc, cosineOfAcc]
  simp only
  rw [mul_comm (Real.sqrt ((nb : ℚ) : ℝ)) (Real.sqrt ((na : ℚ) : ℝ))]
  exact if_congr (by tauto) rfl rfl

theorem cosineOfAcc_bounds (r : SimAcc) (hcs : r.dot ^ 2 ≤ r.normA * r.normB)
    (hna : 0 ≤ r.normA) (hnb : 0 ≤ r.normB) :
    -1 ≤ cosineOfAcc r ∧ cosineOfAcc r ≤ 1 := by
  rw [cosineOfAcc]
  by_cases hz : r.early = true ∨ r.normA = 0 ∨ r.normB = 0
  · rw [if_pos hz]
    norm_num
  · rw [if_neg hz]
    push_neg at hz
    obtain ⟨-, hna0, hnb0⟩ := hz
    have hnapos : (0 : ℝ) < (r.normA : ℝ) := by
      exact_mod_cast lt_of_le_of_ne hna (Ne.symm hna0)
    have hnbpos : (0 : ℝ) < (r.normB : ℝ) := by
      exact_mod_cast lt_of_le_of_ne hnb (Ne.symm hnb0)
    have hsqrt : (0 : ℝ) < Real.sqrt ((r.normA : ℚ) : ℝ) * Real.sqrt ((r.normB : ℚ) : ℝ) :=
      mul_pos (Real.sqrt_pos.mpr hnapos) (Real.sqrt_pos.mpr hnbpos)
    have hcast : ((r.dot : ℚ) : ℝ) ^ 2 ≤ ((r.normA : ℚ) : ℝ) * ((r.normB : ℚ) : ℝ) := by
      exact_mod_cast hcs
    have habs : |((r.dot : ℚ) : ℝ)| ≤
        Real.sqrt ((r.normA : ℚ) : ℝ) * Real.sqrt ((r.normB : ℚ) : ℝ) :=
      calc |((r.dot : ℚ) : ℝ)| = Real.sqrt (((r.dot : ℚ) : ℝ) ^ 2) :=
            (Real.sqrt_sq_eq_abs _).symm
        _ ≤ Real.sqrt (((r.normA : ℚ) : ℝ) * ((r.normB : ℚ) : ℝ)) :=
            Real.sqrt_le_sqrt hcast
        _ = Real.sqrt ((r.normA : ℚ) : ℝ) * Real.sqrt ((r.normB : ℚ) : ℝ) :=
            Real.sqrt_mul hnapos.le _
    have hdivle : |((r.dot : ℚ) : ℝ) /
        (Real.sqrt ((r.normA : ℚ) : ℝ) * Real.sqrt ((r.normB : ℚ) : ℝ))| ≤ 1 := by
      rw [abs_div, abs_of_pos hsqrt]
      exact (div_le_one hsqrt).mpr habs
    have hb := abs_le.mp hdivle
    by_cases hfloor : 1 / 20 < ((r.dot : ℚ) : ℝ) /
        (Real.sqrt ((r.normA : ℚ) : ℝ) * Real.sqrt ((r.normB : ℚ) : ℝ))
    · rw [if_pos hfloor]
      exact hb
    · rw [if_neg hfloor]
      norm_num

theorem cosineOfAcc_diag (S : ℚ) (hS : 0 < S) :
    cosineOfAcc ⟨S, S, S, false⟩ = 1 := by
  rw [cosineOfAcc]
  rw [if_neg (by push_neg; exact ⟨by simp, ne_of_gt hS, ne_of_gt hS⟩)]
  have hSR : (0 : ℝ) < ((S : ℚ) : ℝ) := by exact_mod_cast hS
  simp only
  rw [Real.mul_self_sqrt hSR.le, div_self (ne_of_gt hSR)]
  rw [if_pos (by norm_num)]

/-- C8: `calculateCosineSimilarity` is symmetric for all vector pairs, its
result always lies in `[-1, 1]` (both with the early-termination heuristic and
the near-zero floor in effect), and the self-similarity of every nonzero
vector is exactly `1`. -/
theorem calcCosine_spec (a b v : List ℚ) (hv : ∃ x ∈ v, x ≠ 0) :
    calculateCosineSimilarity a b = calculateCosineSimilarity b a
  ∧ -1 ≤ calculateCosineSimilarity a b
  ∧ calculateCosineSimilarity a b ≤ 1
  ∧ calculateCosineSimilarity v v = 1 := by
  have hbounds : -1 ≤ calculateCosineSimilarity a b
      ∧ calculateCosineSimilarity a b ≤ 1 := by
    rw [calculateCosineSimilarity]
    by_cases hlen : a.length = b.length
    · rw [if_neg (by simp [hlen])]
      obtain ⟨h1, h2, h3⟩ := simLoop_invariant (a.zip b) 0 0 0 0
        (by norm_num) le_rfl le_rfl
      exact cosineOfAcc_bounds _ h1 h2 h3
    · rw [if_pos (by simp [hlen])]
      norm_num
  refine ⟨?_, hbounds.1, hbounds.2, ?_⟩
  · rw [calculateCosineSimilarity, calculateCosineSimilarity]
    by_cases hlen : a.length = b.length
    · rw [if_neg (by simp [hlen]), if_neg (by simp [hlen])]
      rw [← List.zip_swap a b, simLoop_swap]
      exact (cosineOfAcc_swap _ _ _ _).symm
    · rw [if_pos (by simp [hlen]),
        if_pos (show b.length ≠ a.length from fun h => hlen h.symm)]
  · rw [calculateCosineSimilarity, if_neg (by simp)]
    rw [simLoop_diag v 0 0 0]
    have hz : (0 : ℚ) + sumSq v = sumSq v := by ring
    rw [hz]
    exact cosineOfAcc_diag (sumSq v) (sumSq_pos hv)

theorem calcCosine_spec_witness :
    (∃ x ∈ [(1 : ℚ)], x ≠ 0) ∧ calculateCosineSimilarity [(1 : ℚ)] [(1 : ℚ)] = 1 := by
  have h : ∃ x ∈ [(1 : ℚ)], x ≠ 0 := ⟨1, by simp, by norm_num⟩
  exact ⟨h, (calcCosine_spec [(1 : ℚ)] [(1 : ℚ)] [(1 : ℚ)] h).2.2.2⟩

/-! ### Local vector store search (index.js lines 2751-2827)

`searchUploadedDocuments` scores every chunk of every catalogued document
against the query vector, keeps scores strictly above the `0.1` threshold,
caps each document at `Math.ceil(k/2)` passages, and returns the global top
`k` by similarity.  The chunk records are inputs of the model (the file I/O
and its retry loop supply them).  The scoring function is a parameter so that
the code's `calculateCosineSimilarity` can be compared against the spec's
baseline. -/

structure Chunk where
  content : String
  contentVector : List ℚ

structure StoredDoc where
  docId : String
  originalName : String
  chunks : List Chunk

/-- Lines 2793-2807: score one chunk; keep it only above the similarity
threshold `0.1`. -/
noncomputable def scoreChunk (simf : List ℚ → List ℚ → ℝ) (queryVec : List ℚ)
    (doc : StoredDoc) (c : Chunk) : Option (Passage ℝ) :=
  if 1 / 10 < simf queryVec c.contentVector then
    some ⟨doc.originalName, "uploaded://" ++ doc.docId, c.content,
      .uploaded_document, simf queryVec c.contentVector, some doc.docId⟩
  else none

/-- Lines 2791-2812: score a document's chunks, sort descending, cap at
`Math.ceil(k/2)` per document. -/
noncomputable def scoreDocument (simf : List ℚ → List ℚ → ℝ) (queryVec : List ℚ)
    (k : Nat) (doc : StoredDoc) : List (Passage ℝ) :=
  (sortByDesc (fun p => p.similarity)
    (doc.chunks.filterMap (scoreChunk simf queryVec doc))).take ((k + 1) / 2)

/-- Lines 2819-2826: flatten the per-document results, sort descending by
similarity, return the top `k`. -/
noncomputable def searchUploadedDocuments (simf : List ℚ → List ℚ → ℝ)
    (store : List StoredDoc) (queryVec : List ℚ) (k : Nat) : List (Passage ℝ) :=
  (sortByDesc (fun p => p.similarity)
    ((store.map (scoreDocument simf queryVec k)).flatten)).take k

/-- Accumulators of the cosine loop without the early-termination check. -/
def simAccPlain : List (ℚ × ℚ) → ℚ → ℚ → ℚ → ℚ × ℚ × ℚ
  | [], d, na, nb => (d, na, nb)
  | (a, b) :: rest, d, na, nb =>
    simAccPlain rest (d + a * b) (na + a * a) (nb + b * b)

noncomputable def plainOfAcc (r : ℚ × ℚ × ℚ) : ℝ :=
  if r.2.1 = 0 ∨ r.2.2 = 0 then 0
  else (r.1 : ℝ) / (Real.sqrt (r.2.1 : ℝ) * Real.sqrt (r.2.2 : ℝ))

/-- Modelled from the spec: the baseline "standard dot-product-over-norms"
cosine similarity, with neither the early-termination heuristic nor the
near-zero flooring. -/
noncomputable def plainCosine (vecA vecB : List ℚ) : ℝ :=
  if vecA.length ≠ vecB.length then 0
  else plainOfAcc (simAccPlain (vecA.zip vecB) 0 0 0)

/-- The code's near-zero flooring (line 2861) applied on top of the baseline:
this is `calculateCosineSimilarity` without the early-termination heuristic. -/
noncomputable def flooredCosine (vecA vecB : List ℚ) : ℝ :=
  if 1 / 20 < plainCosine vecA vecB then plainCosine vecA vecB else 0

/-- C9 (amended): the near-zero flooring alone never changes the local
store's results — a floored similarity was below the `0.1` reporting
threshold anyway — for every store, query vector and `k`.  (The
early-termination heuristic, by contrast, can change the top-k ranking: see
the counterexample.) -/
theorem searchUploaded_floor_irrelevant (store : List StoredDoc)
    (queryVec : List ℚ) (k : Nat) :
    searchUploadedDocuments flooredCosine store queryVec k =
      searchUploadedDocuments plainCosine store queryVec k := by
  have hchunk : scoreChunk flooredCosine = scoreChunk plainCosine := by
    funext q doc c
    rw [scoreChunk, scoreChunk, flooredCosine]
    by_cases hf : 1 / 20 < plainCosine q c.contentVector
    · rw [if_pos hf]
    · rw [if_neg hf]
      push_neg at hf
      rw [if_neg (by norm_num), if_neg (by linarith)]
  have hdoc : scoreDocument flooredCosine = scoreDocument plainCosine := by
    funext q n doc
    rw [scoreDocument, scoreDocument, hchunk]
  rw [searchUploadedDocuments, searchUploadedDocuments, hdoc]

/-- Query vector of dimension 102: zero except for a final `6`. -/
def cxQuery : List ℚ := List.replicate 101 0 ++ [6]

/-- Stored chunk vector of dimension 102: zero except for a final `1` — a
positive multiple of the query, so its true cosine similarity is exactly 1. -/
def cxVec : List ℚ := List.replicate 101 0 ++ [1]

def cxChunk : Chunk := ⟨"relevant passage", cxVec⟩

def cxDoc : StoredDoc := ⟨"d1", "notes.pdf", [cxChunk]⟩

theorem zip_replicate_pair {α β : Type} (a : α) (b : β) :
    ∀ n, (List.replicate n a).zip (List.replicate n b) = List.replicate n (a, b) := by
  intro n
  induction n with
  | zero => rfl
  | succ n IH => simp [List.replicate_succ, IH]

theorem cxZip : cxQuery.zip cxVec =
    List.replicate 101 ((0 : ℚ), (0 : ℚ)) ++ [(6, 1)] := by
  rw [cxQuery, cxVec, List.zip_append (by simp), zip_replicate_pair]
  rfl

theorem simLoop_zeros : ∀ (n i : Nat) (rest : List (ℚ × ℚ)),
    simLoop i (List.replicate n (0, 0) ++ rest) 0 0 0 =
      simLoop (i + n) rest 0 0 0 := by
  intro n
  induction n with
  | zero => intro i rest; simp
  | succ n IH =>
    intro i rest
    rw [List.replicate_succ, List.cons_append, simLoop]
    rw [if_neg (by norm_num)]
    rw [show (0 : ℚ) + 0 * 0 = 0 by norm_num]
    rw [IH (i + 1) rest]
    congr 1
    omega

theorem simAccPlain_zeros : ∀ (n : Nat) (rest : List (ℚ × ℚ)),
    simAccPlain (List.replicate n (0, 0) ++ rest) 0 0 0 =
      simAccPlain rest 0 0 0 := by
  intro n
  induction n with
  | zero => intro rest; simp
  | succ n IH =>
    intro rest
    rw [List.replicate_succ, List.cons_append, simAccPlain]
    rw [show (0 : ℚ) + 0 * 0 = 0 by norm_num]
    exact IH rest

theorem calcCosine_cx : calculateCosineSimilarity cxQuery cxVec = 0 := by
  rw [calculateCosineSimilarity, if_neg (by simp [cxQuery, cxVec])]
  rw [cxZip, simLoop_zeros 101 0 [(6, 1)], simLoop]
  rw [if_pos (by norm_num)]
  rw [cosineOfAcc]
  rw [if_pos (Or.inl rfl)]

theorem plainCosine_cx : plainCosine cxQuery cxVec = 1 := by
  rw [plainCosine, if_neg (by simp [cxQuery, cxVec])]
  rw [cxZip, simAccPlain_zeros 101 [(6, 1)], simAccPlain, simAccPlain]
  rw [plainOfAcc]
  rw [if_neg (by norm_num)]
  have h36 : (((0 + 6 * 6 : ℚ)) : ℝ) = 36 := by norm_num
  have h1 : (((0 + 1 * 1 : ℚ)) : ℝ) = 1 := by norm_num
  have h6 : (((0 + 6 * 1 : ℚ)) : ℝ) = 6 := by norm_num
  simp only
  rw [h36, h1, h6, Real.sqrt_one]
  rw [show (36 : ℝ) = 6 ^ 2 by norm_num, Real.sqrt_sq (by norm_num : (0 : ℝ) ≤ 6)]
  norm_num

/-- C9, counterexample: with the 102-dimensional query `(0,...,0,6)` and a
stored chunk vector `(0,...,0,1)` — true cosine similarity exactly 1 — the
early-termination heuristic fires (`|normA - normB| = 35 > 10` past index
100), scores the chunk 0, and the local store returns nothing, while the
plain dot-product-over-norms similarity returns the chunk as the top result:
the optimization changes the top-k ranking. -/
theorem searchUploaded_earlyExit_counterexample :
    searchUploadedDocuments calculateCosineSimilarity [cxDoc] cxQuery 1 = []
  ∧ (searchUploadedDocuments plainCosine [cxDoc] cxQuery 1).length = 1 := by
  constructor
  · have hch : scoreChunk calculateCosineSimilarity cxQuery cxDoc cxChunk = none := by
      rw [scoreChunk, show cxChunk.contentVector = cxVec from rfl, calcCosine_cx]
      rw [if_neg (by norm_num)]
    have hdoc : scoreDocument calculateCosineSimilarity cxQuery 1 cxDoc = [] := by
      rw [scoreDocument, show cxDoc.chunks = [cxChunk] from rfl]
      simp [hch, sortByDesc]
    rw [searchUploadedDocuments]
    simp [hdoc, sortByDesc]
  · have hch : scoreChunk plainCosine cxQuery cxDoc cxChunk =
        some ⟨"notes.pdf", "uploaded://" ++ "d1", "relevant passage",
          .uploaded_document, 1, some "d1"⟩ := by
      rw [scoreChunk, show cxChunk.contentVector = cxVec from rfl, plainCosine_cx]
      rw [if_pos (by norm_num)]
      rfl
    have hdoc : scoreDocument plainCosine cxQuery 1 cxDoc =
        [⟨"notes.pdf", "uploaded://" ++ "d1", "relevant passage",
          .uploaded_document, 1, some "d1"⟩] := by
      rw [scoreDocument, show cxDoc.chunks = [cxChunk] from rfl]
      simp [hch, sortByDesc]
    rw [searchUploadedDocuments]
    simp [hdoc, sortByDesc]

end TelegramChatbot
